import Mathlib

/-
Verification development for the GitHub-code-editor repository.

Embedded components:
* src/utils/codeModifier.ts — the patch engine `applyChanges`;
* src/utils/storage.ts — the local version store (`saveCodeVersion`,
  `getSavedVersions`, `clearAllVersions`);
* src/App.tsx — the bounded session-history undo stack.

Modelling conventions:
* A JavaScript string is modelled as a `List Char` (named `Str`).
* `String.prototype.replace(searchString, replaceString)` is modelled
  including the ECMAScript `GetSubstitution` expansion of `$$`, `$&`,
  dollar-backtick and dollar-quote in the replacement string (with a plain
  string search there are no capture groups, so `$n` stays literal).
* A JavaScript `Map` (insertion-ordered, `set` on an existing key keeps its
  position) is modelled as an association list with in-place update.
* `localStorage` is modelled as an insertion-ordered key/value association
  list; JSON (de)serialization of a file array — a platform library call,
  not repository code — is modelled at value level: a stored value is
  either a raw string (models an entry that `JSON.parse` rejects) or a
  serialized file array (round-trips exactly, as JSON does for this shape).
  An unavailable medium and a medium whose writes throw (quota) are
  explicit constructors.
* Console diagnostics (`console.warn` / `console.error`) are modelled as an
  explicit diagnostics list returned next to the file set.
* JavaScript `NaN` flowing out of `parseInt` is modelled by `Option Int`
  (`none` = NaN).
-/

abbrev Str := List Char

def str (s : String) : Str := s.data

/-- FileRecord from src/types.ts: `UploadedFile {name, content, type}`. -/
structure UploadedFile where
  name : Str
  content : Str
  type : Str
deriving DecidableEq

/-- `Deletion {fileName, before, codeToDelete, after}` from src/types.ts. -/
structure Deletion where
  fileName : Str
  before : Str
  codeToDelete : Str
  after : Str
deriving DecidableEq

/-- `Modification {fileName, before, codeToDelete, newCode, after}` from src/types.ts. -/
structure Modification where
  fileName : Str
  before : Str
  codeToDelete : Str
  newCode : Str
  after : Str
deriving DecidableEq

/-- An entry of `plan.newFiles`: `{fileName, code}`. -/
structure NewFileEntry where
  fileName : Str
  code : Str
deriving DecidableEq

/-- `ModificationPlan` from src/types.ts.  The optional arrays are modelled
as plain lists: `applyChanges` reads them through `?? []` / emptiness
guards, so an absent array and an empty one are indistinguishable. -/
structure ModificationPlan where
  delete : List Deletion
  modify : List Modification
  newFiles : List NewFileEntry
  deleteFiles : List Str
  notes : Option Str
deriving DecidableEq

/-- ECMAScript GetSubstitution for a string-valued search (no capture
groups): `$$` yields `$`, `$&` the matched string, dollar-backtick the
portion before the match, dollar-quote the portion after it; everything
else (including `$1`..`$9`, which exceed the zero available captures) is
literal.  This is what `String.prototype.replace` applies to its
replacement argument. -/
def getSubstitution (matched strBefore strAfter : Str) : Str → Str
  | [] => []
  | [c] => [c]
  | c1 :: c2 :: rest =>
    if c1 = '$' then
      if c2 = '$' then '$' :: getSubstitution matched strBefore strAfter rest
      else if c2 = '&' then matched ++ getSubstitution matched strBefore strAfter rest
      else if c2 = Char.ofNat 96 then strBefore ++ getSubstitution matched strBefore strAfter rest
      else if c2 = Char.ofNat 39 then strAfter ++ getSubstitution matched strBefore strAfter rest
      else c1 :: getSubstitution matched strBefore strAfter (c2 :: rest)
    else c1 :: getSubstitution matched strBefore strAfter (c2 :: rest)

/-- Locate the first occurrence of `target` in a string: returns the part
before and the part after the match. -/
def splitFirst (target : Str) : Str → Option (Str × Str)
  | [] => if target.isPrefixOf ([] : Str) then some ([], []) else none
  | c :: rest =>
    if target.isPrefixOf (c :: rest) then some ([], (c :: rest).drop target.length)
    else (splitFirst target rest).map (fun pq => (c :: pq.1, pq.2))

/-- `String.prototype.includes`. -/
def containsSub (target s : Str) : Bool := (splitFirst target s).isSome

/-- `s.replace(target, tpl)` with a string search value: replace the first
occurrence of `target` by the GetSubstitution expansion of `tpl`; return
`s` unchanged when `target` does not occur. -/
def jsReplace (s target tpl : Str) : Str :=
  match splitFirst target s with
  | none => s
  | some pq => pq.1 ++ getSubstitution target pq.1 pq.2 tpl ++ pq.2

/-- Helper for `countOccs`: `skip` characters still to be consumed by the
previous match before scanning resumes (regex `lastIndex` advance). -/
def countOccsAux (target : Str) : Nat → Str → Nat
  | _, [] => 0
  | Nat.succ k, _ :: rest => countOccsAux target k rest
  | 0, c :: rest =>
    if target.isPrefixOf (c :: rest) then
      Nat.succ (countOccsAux target (target.length - 1) rest)
    else countOccsAux target 0 rest

/-- Number of matches of `content.match(new RegExp(escapeRegExp(target), 'g'))`
for a non-empty `target`: non-overlapping occurrences, scanning left to
right greedily. -/
def countOccs (target s : Str) : Nat := countOccsAux target 0 s

/-- Number of positions at which `target` occurs as a substring (overlapping
occurrences counted separately).  This is the specification-level notion of
"appears in the content n times"; it differs from `countOccs` exactly on
self-overlapping targets. -/
def subCount (target : Str) : Str → Nat
  | [] => if target.isPrefixOf ([] : Str) then 1 else 0
  | c :: rest => (if target.isPrefixOf (c :: rest) then 1 else 0) + subCount target rest

/-- Association list modelling a JavaScript `Map` with `Str` keys:
lookup returns the first (on a real map, only) binding. -/
def alGet {α : Type} (m : List (Str × α)) (k : Str) : Option α :=
  match m with
  | [] => none
  | (k', v) :: rest => if k' = k then some v else alGet rest k

/-- `Map.prototype.set`: update an existing binding in place (keeping its
insertion position) or append a fresh one at the end. -/
def alSet {α : Type} (m : List (Str × α)) (k : Str) (v : α) : List (Str × α) :=
  match m with
  | [] => [(k, v)]
  | (k', v') :: rest => if k' = k then (k, v) :: rest else (k', v') :: alSet rest k v

/-- `Map.prototype.delete` / `localStorage.removeItem`: drop the binding of
`k` (all of them; a real map holds at most one). -/
def alRemove {α : Type} : List (Str × α) → Str → List (Str × α)
  | [], _ => []
  | (k', v') :: rest, k => if k' = k then alRemove rest k else (k', v') :: alRemove rest k

/-- The value stored against a file name in the working map of
`applyChanges`: `{ content, type }`. -/
structure FileData where
  content : Str
  type : Str
deriving DecidableEq

abbrev FileMap := List (Str × FileData)

/-- One in-place operation of the plan; `applyChanges` distinguishes the two
shapes by presence of `newCode` (`'newCode' in op`). -/
inductive EditOp where
  | del (d : Deletion)
  | mod (m : Modification)
deriving DecidableEq

def EditOp.fileName : EditOp → Str
  | .del d => d.fileName
  | .mod m => m.fileName

def EditOp.before : EditOp → Str
  | .del d => d.before
  | .mod m => m.before

def EditOp.codeToDelete : EditOp → Str
  | .del d => d.codeToDelete
  | .mod m => m.codeToDelete

def EditOp.after : EditOp → Str
  | .del d => d.after
  | .mod m => m.after

/-- `newCode` for a Modification, empty for a Deletion (the replacement the
engine builds in both the anchored and the fallback case). -/
def EditOp.newCodeOrEmpty : EditOp → Str
  | .del _ => []
  | .mod m => m.newCode

/-- Console diagnostics of `applyChanges`, in emission order. -/
inductive Diag where
  | fileNotFound (name : Str)
  | fallbackApplied (name : Str)
  | opSkipped (name : Str) (occurrences : Nat)
  | overwritten (name : Str)
deriving DecidableEq

/-- The body of the `for (const op of operations)` loop of `applyChanges`
(src/utils/codeModifier.ts, lines 27-62), acting on the working map and the
diagnostics log. -/
def applyEditOp (st : FileMap × List Diag) (op : EditOp) : FileMap × List Diag :=
  match alGet st.1 op.fileName with
  | none => (st.1, st.2 ++ [Diag.fileNotFound op.fileName])
  | some fd =>
    if !((str "image/").isPrefixOf fd.type) then
      let fullContextString := op.before ++ op.codeToDelete ++ op.after
      let replacementString := op.before ++ op.newCodeOrEmpty ++ op.after
      if containsSub fullContextString fd.content then
        (alSet st.1 op.fileName ⟨jsReplace fd.content fullContextString replacementString, fd.type⟩,
         st.2)
      else
        let occurrences := if op.codeToDelete = [] then 0 else countOccs op.codeToDelete fd.content
        if op.codeToDelete ≠ [] ∧ occurrences = 1 then
          (alSet st.1 op.fileName ⟨jsReplace fd.content op.codeToDelete op.newCodeOrEmpty, fd.type⟩,
           st.2 ++ [Diag.fallbackApplied op.fileName])
        else
          (alSet st.1 op.fileName fd, st.2 ++ [Diag.opSkipped op.fileName occurrences])
    else
      match op with
      | .mod mm => (alSet st.1 op.fileName ⟨mm.newCode, fd.type⟩, st.2)
      | .del _ => (alSet st.1 op.fileName fd, st.2)

/-- MIME inference for `plan.newFiles` entries (the `endsWith` chain in
`applyChanges`). -/
def inferType (name : Str) : Str :=
  if (str ".js").isSuffixOf name then str "application/javascript"
  else if (str ".css").isSuffixOf name then str "text/css"
  else if (str ".html").isSuffixOf name then str "text/html"
  else str "text/plain"

/-- The body of the `for (const newFile of plan.newFiles)` loop of
`applyChanges` (lines 65-76): warn when the name pre-exists, then set the
entry unconditionally with the freshly inferred type. -/
def applyNewFile (st : FileMap × List Diag) (nf : NewFileEntry) : FileMap × List Diag :=
  let warn := if (alGet st.1 nf.fileName).isSome then [Diag.overwritten nf.fileName] else []
  (alSet st.1 nf.fileName ⟨nf.code, inferType nf.fileName⟩, st.2 ++ warn)

/-- `originalFiles.forEach(file => finalFilesMap.set(...))`. -/
def buildMap (files : List UploadedFile) : FileMap :=
  files.foldl (fun m f => alSet m f.name ⟨f.content, f.type⟩) []

/-- Step 1 of `applyChanges`: remove every name of `plan.deleteFiles`. -/
def deleteNames (names : List Str) (m : FileMap) : FileMap :=
  names.foldl alRemove m

/-- `Array.from(finalFilesMap.entries()).map(...)`. -/
def filesOfMap (m : FileMap) : List UploadedFile :=
  m.map (fun kv => ⟨kv.1, kv.2.content, kv.2.type⟩)

/-- `applyChanges` from src/utils/codeModifier.ts, with the console
diagnostics made explicit as the second component. -/
def applyChanges (originalFiles : List UploadedFile) (plan : ModificationPlan) :
    List UploadedFile × List Diag :=
  let m0 := buildMap originalFiles
  let m1 := deleteNames plan.deleteFiles m0
  let operations := plan.delete.map EditOp.del ++ plan.modify.map EditOp.mod
  let st2 := operations.foldl applyEditOp (m1, [])
  let st3 := plan.newFiles.foldl applyNewFile st2
  (filesOfMap st3.1, st3.2)

theorem isPrefixOf_append (t q : Str) : t.isPrefixOf (t ++ q) = true := by
  rw [ List.isPrefixOf_iff_prefix]
  exact List.prefix_append t q

theorem splitFirst_sound (t : Str) :
    ∀ s p q, splitFirst t s = some (p, q) → s = p ++ t ++ q := by
  intro s
  induction s with
  | nil =>
    intro p q h
    simp only [splitFirst] at h
    split at h
    · next hp =>
      rw [ List.isPrefixOf_iff_prefix, List.prefix_nil] at hp
      cases h
      simp [hp]
    · exact absurd h (by simp)
  | cons c rest ih =>
    intro p q h
    simp only [splitFirst] at h
    split at h
    · next hp =>
      rw [ List.isPrefixOf_iff_prefix] at hp
      obtain ⟨r, hr⟩ := hp
      cases h
      have hd : (c :: rest).drop t.length = r := by rw [← hr, List.drop_left]
      rw [hd]
      simp [← hr]
    · next hp =>
      match he : splitFirst t rest with
      | none => rw [he] at h; exact absurd h (by simp)
      | some pq =>
        obtain ⟨p0, q0⟩ := pq
        rw [he] at h
        simp only [Option.map_some', Option.some.injEq, Prod.mk.injEq] at h
        obtain ⟨hp1, hq1⟩ := h
        subst hp1
        subst hq1
        have hrest := ih p0 q0 he
        simp [hrest]

theorem splitFirst_isSome_of_isPrefixOf (t s : Str) (h : t.isPrefixOf s = true) :
    (splitFirst t s).isSome = true := by
  cases s with
  | nil => simp [splitFirst, h]
  | cons c rest => simp [splitFirst, h]

theorem splitFirst_isSome_append (t : Str) :
    ∀ p q, (splitFirst t (p ++ t ++ q)).isSome = true := by
  intro p
  induction p with
  | nil =>
    intro q
    exact splitFirst_isSome_of_isPrefixOf t (([] : Str) ++ t ++ q)
      (by simp [isPrefixOf_append t q])
  | cons c p0 ih =>
    intro q
    by_cases hp : t.isPrefixOf ((c :: p0) ++ t ++ q) = true
    · exact splitFirst_isSome_of_isPrefixOf t _ hp
    · have hshape : (c :: p0) ++ t ++ q = c :: (p0 ++ t ++ q) := by simp
      rw [hshape]
      rw [hshape] at hp
      simp only [splitFirst, if_neg hp]
      simpa using ih q

theorem splitFirst_first (t : Str) :
    ∀ s p q, splitFirst t s = some (p, q) →
      ∀ p' q', s = p' ++ t ++ q' → p.length ≤ p'.length := by
  intro s
  induction s with
  | nil =>
    intro p q h p' q' _
    simp only [splitFirst] at h
    split at h
    · cases h; exact Nat.zero_le _
    · exact absurd h (by simp)
  | cons c rest ih =>
    intro p q h p' q' he
    simp only [splitFirst] at h
    split at h
    · cases h; exact Nat.zero_le _
    · next hp =>
      match he' : splitFirst t rest with
      | none => rw [he'] at h; exact absurd h (by simp)
      | some pq =>
        obtain ⟨p0, q0⟩ := pq
        rw [he'] at h
        simp only [Option.map_some', Option.some.injEq, Prod.mk.injEq] at h
        obtain ⟨hp1, hq1⟩ := h
        subst hp1
        cases p' with
        | nil =>
          exfalso
          apply hp
          rw [ List.isPrefixOf_iff_prefix]
          exact ⟨q', by simpa using he.symm⟩
        | cons c' p0' =>
          have he2 : rest = p0' ++ t ++ q' := by
            have : c :: rest = c' :: (p0' ++ t ++ q') := by simpa using he
            exact (List.cons.injEq _ _ _ _ ▸ this).2
          have := ih p0 q0 he' p0' q' he2
          simpa using Nat.succ_le_succ this

theorem containsSub_iff (t s : Str) :
    containsSub t s = true ↔ ∃ p q, s = p ++ t ++ q := by
  constructor
  · intro h
    rw [containsSub] at h
    match he : splitFirst t s with
    | none => rw [he] at h; exact absurd h (by simp)
    | some pq => exact ⟨pq.1, pq.2, splitFirst_sound t s pq.1 pq.2 he⟩
  · rintro ⟨p, q, rfl⟩
    rw [containsSub]
    exact splitFirst_isSome_append t p q

theorem containsSub_eq_false_iff (t s : Str) :
    containsSub t s = false ↔ ∀ p q, s ≠ p ++ t ++ q := by
  rw [← Bool.not_eq_true, containsSub_iff]
  push_neg
  exact Iff.rfl

theorem getSubstitution_noDollar (a p q : Str) :
    ∀ tpl : Str, '$' ∉ tpl → getSubstitution a p q tpl = tpl
  | [], _ => rfl
  | [c], _ => rfl
  | c1 :: c2 :: rest, h => by
    have h1 : ¬(c1 = '$') := fun e => h (by simp [e])
    have h2 : '$' ∉ c2 :: rest := fun hm => h (List.mem_cons_of_mem _ hm)
    simp only [getSubstitution, if_neg h1]
    rw [getSubstitution_noDollar a p q (c2 :: rest) h2]

theorem jsReplace_first (s t tpl p q : Str)
    (hs : s = p ++ t ++ q)
    (hfirst : ∀ p' q', s = p' ++ t ++ q' → p.length ≤ p'.length)
    (hnd : '$' ∉ tpl) :
    jsReplace s t tpl = p ++ tpl ++ q := by
  match he : splitFirst t s with
  | none =>
    have := splitFirst_isSome_append t p q
    rw [← hs, he] at this
    exact absurd this (by simp)
  | some (p0, q0) =>
    have hd := splitFirst_sound t s p0 q0 he
    have h1 : p0.length ≤ p.length := splitFirst_first t s p0 q0 he p q hs
    have h2 : p.length ≤ p0.length := hfirst p0 q0 hd
    have hlen : p0.length = p.length := Nat.le_antisymm h1 h2
    have happ : p0 ++ (t ++ q0) = p ++ (t ++ q) := by
      rw [← List.append_assoc, ← List.append_assoc, ← hd, ← hs]
    obtain ⟨hp0, htq⟩ := List.append_inj happ hlen
    have hq0 : q0 = q := List.append_cancel_left htq
    rw [jsReplace, he, hp0, hq0]
    show p ++ getSubstitution t p q tpl ++ q = p ++ tpl ++ q
    rw [getSubstitution_noDollar t p q tpl hnd]

theorem countOccsAux_le_subCount (t : Str) :
    ∀ s k, countOccsAux t k s ≤ subCount t s := by
  intro s
  induction s with
  | nil => intro k; simp [countOccsAux]
  | cons c rest ih =>
    intro k
    match k with
    | Nat.succ k' =>
      have h1 : countOccsAux t (Nat.succ k') (c :: rest) = countOccsAux t k' rest := rfl
      rw [h1, subCount]
      exact Nat.le_trans (ih k') (Nat.le_add_left _ _)
    | 0 =>
      by_cases hp : t.isPrefixOf (c :: rest) = true
      · rw [subCount, if_pos hp]
        have h1 : countOccsAux t 0 (c :: rest)
            = Nat.succ (countOccsAux t (t.length - 1) rest) := by
          simp only [countOccsAux, if_pos hp]
        rw [h1]
        have := ih (t.length - 1)
        omega
      · rw [subCount, if_neg hp]
        have h1 : countOccsAux t 0 (c :: rest) = countOccsAux t 0 rest := by
          simp only [countOccsAux, if_neg hp]
        rw [h1]
        have := ih 0
        omega

theorem countOccs_le_subCount (t s : Str) : countOccs t s ≤ subCount t s :=
  countOccsAux_le_subCount t s 0

theorem countOccs_pos (t : Str) (ht : t ≠ []) :
    ∀ p q, 1 ≤ countOccs t (p ++ t ++ q) := by
  intro p
  induction p with
  | nil =>
    intro q
    match hm : t with
    | c :: t' =>
      have hp : t.isPrefixOf (t ++ q) = true := isPrefixOf_append t q
      rw [hm] at hp
      have hshape : (([] : Str) ++ (c :: t') ++ q) = c :: (t' ++ q) := by simp
      rw [hshape]
      rw [countOccs]
      have h1 : countOccsAux (c :: t') 0 (c :: (t' ++ q))
          = Nat.succ (countOccsAux (c :: t') ((c :: t').length - 1) (t' ++ q)) := by
        simp only [countOccsAux]
        rw [if_pos (by simp only [List.cons_append] at hp; exact hp)]
      rw [h1]
      omega
  | cons c p0 ih =>
    intro q
    have hshape : ((c :: p0) ++ t ++ q) = c :: (p0 ++ t ++ q) := by simp
    rw [hshape, countOccs]
    by_cases hp : t.isPrefixOf (c :: (p0 ++ t ++ q)) = true
    · have h1 : countOccsAux t 0 (c :: (p0 ++ t ++ q))
          = Nat.succ (countOccsAux t (t.length - 1) (p0 ++ t ++ q)) := by
        simp only [countOccsAux, if_pos hp]
      rw [h1]; omega
    · have h1 : countOccsAux t 0 (c :: (p0 ++ t ++ q))
          = countOccsAux t 0 (p0 ++ t ++ q) := by
        simp only [countOccsAux, if_neg hp]
      rw [h1]
      exact ih q

theorem subCount_pos_of_isPrefixOf (t s : Str) (h : t.isPrefixOf s = true) :
    1 ≤ subCount t s := by
  cases s with
  | nil => simp [subCount, h]
  | cons c rest => rw [subCount, if_pos h]; omega

theorem subCount_pos (t : Str) : ∀ p q, 1 ≤ subCount t (p ++ t ++ q) := by
  intro p
  induction p with
  | nil =>
    intro q
    exact subCount_pos_of_isPrefixOf t (([] : Str) ++ t ++ q)
      (by simp [isPrefixOf_append t q])
  | cons c p0 ih =>
    intro q
    have hshape : ((c :: p0) ++ t ++ q) = c :: (p0 ++ t ++ q) := by simp
    rw [hshape, subCount]
    exact Nat.le_trans (ih q) (Nat.le_add_left _ _)

theorem subCount_two (t : Str) :
    ∀ p1 q1 p2 q2, p1 ++ t ++ q1 = p2 ++ t ++ q2 → p1.length < p2.length →
      2 ≤ subCount t (p1 ++ t ++ q1) := by
  intro p1
  induction p1 with
  | nil =>
    intro q1 p2 q2 he hl
    cases p2 with
    | nil => simp at hl
    | cons c2 p2' =>
      have hs : (t ++ q1 : Str) = c2 :: (p2' ++ t ++ q2) := by simpa using he
      have hgoal : (([] : Str) ++ t ++ q1) = c2 :: (p2' ++ t ++ q2) := by simpa using hs
      rw [hgoal, subCount]
      have hp : t.isPrefixOf (c2 :: (p2' ++ t ++ q2)) = true := by
        rw [ List.isPrefixOf_iff_prefix]
        exact ⟨q1, by rw [← hs]⟩
      rw [if_pos hp]
      have := subCount_pos t p2' q2
      omega
  | cons c p1' ih =>
    intro q1 p2 q2 he hl
    cases p2 with
    | nil =>
      simp only [List.length_cons, List.length_nil] at hl
      omega
    | cons c2 p2' =>
      have hc : c = c2 ∧ p1' ++ t ++ q1 = p2' ++ t ++ q2 := by simpa using he
      have hl' : p1'.length < p2'.length := by
        simp only [List.length_cons] at hl
        omega
      have h2 := ih q1 p2' q2 hc.2 hl'
      have hshape : ((c :: p1') ++ t ++ q1) = c :: (p1' ++ t ++ q1) := by simp
      rw [hshape, subCount]
      exact Nat.le_trans h2 (Nat.le_add_left _ _)

theorem alGet_set_self {α : Type} (m : List (Str × α)) (k : Str) (v : α) :
    alGet (alSet m k v) k = some v := by
  induction m with
  | nil => simp [alSet, alGet]
  | cons kv rest ih =>
    obtain ⟨k', v'⟩ := kv
    by_cases h : k' = k
    · simp [alSet, alGet, h]
    · simp only [alSet, if_neg h]
      rw [alGet, if_neg h]
      exact ih

theorem alGet_set_ne {α : Type} (m : List (Str × α)) (k : Str) (v : α) (k' : Str)
    (h : k' ≠ k) : alGet (alSet m k v) k' = alGet m k' := by
  have hk : ¬(k = k') := fun e => h (Eq.symm e)
  induction m with
  | nil => simp [alSet, alGet, hk]
  | cons kv rest ih =>
    obtain ⟨k0, v0⟩ := kv
    by_cases h0 : k0 = k
    · subst h0
      simp only [alSet, if_pos rfl, alGet]
      rw [if_neg hk, if_neg hk]
    · simp only [alSet, if_neg h0, alGet]
      by_cases h1 : k0 = k'
      · rw [if_pos h1, if_pos h1]
      · rw [if_neg h1, if_neg h1]
        exact ih

theorem alSet_same {α : Type} (m : List (Str × α)) (k : Str) (v : α)
    (h : alGet m k = some v) : alSet m k v = m := by
  induction m with
  | nil => simp [alGet] at h
  | cons kv rest ih =>
    obtain ⟨k0, v0⟩ := kv
    by_cases h0 : k0 = k
    · rw [alGet, if_pos h0] at h
      cases h
      simp [alSet, if_pos h0, h0]
    · rw [alGet, if_neg h0] at h
      simp only [alSet, if_neg h0]
      rw [ih h]

theorem alGet_none_iff {α : Type} (m : List (Str × α)) (k : Str) :
    alGet m k = none ↔ k ∉ m.map Prod.fst := by
  induction m with
  | nil => simp [alGet]
  | cons kv rest ih =>
    obtain ⟨k0, v0⟩ := kv
    by_cases h0 : k0 = k
    · subst h0
      simp only [alGet, if_pos rfl, List.map_cons, List.mem_cons]
      constructor
      · intro hn
        exact absurd hn (Option.some_ne_none v0)
      · intro hn
        exact absurd (Or.inl trivial) hn
    · simp only [alGet, if_neg h0]
      simp only [List.map_cons, List.mem_cons]
      rw [ih]
      constructor
      · intro hn hc
        rcases hc with hc | hc
        · exact h0 (Eq.symm hc)
        · exact hn hc
      · intro hn hc
        exact hn (Or.inr hc)

theorem alGet_isSome_iff {α : Type} (m : List (Str × α)) (k : Str) :
    (alGet m k).isSome = true ↔ k ∈ m.map Prod.fst := by
  constructor
  · intro h
    by_contra hk
    rw [← alGet_none_iff] at hk
    rw [hk] at h
    exact absurd h (by simp)
  · intro h
    cases he : alGet m k with
    | none => exact absurd ((alGet_none_iff m k).mp he) (by simp [h])
    | some v => simp

theorem alGet_set_isSome {α : Type} (m : List (Str × α)) (k : Str) (v : α) (k' : Str) :
    (alGet (alSet m k v) k').isSome = true ↔ k' = k ∨ (alGet m k').isSome = true := by
  by_cases h : k' = k
  · subst h
    rw [alGet_set_self]
    simp
  · rw [alGet_set_ne m k v k' h]
    simp [h]

theorem alGet_remove {α : Type} (m : List (Str × α)) (k k' : Str) :
    alGet (alRemove m k) k' = if k' = k then none else alGet m k' := by
  induction m with
  | nil => simp [alRemove, alGet]
  | cons kv rest ih =>
    obtain ⟨k0, v0⟩ := kv
    by_cases h0 : k0 = k
    · simp only [alRemove, if_pos h0]
      rw [ih]
      by_cases h1 : k' = k
      · rw [if_pos h1, if_pos h1]
      · rw [if_neg h1, if_neg h1]
        simp only [alGet]
        rw [if_neg (fun e : k0 = k' => h1 (e ▸ h0))]
    · simp only [alRemove, if_neg h0, alGet]
      by_cases h1 : k' = k
      · subst h1
        rw [if_pos rfl, if_neg h0, ih, if_pos rfl]
      · rw [if_neg h1]
        by_cases h2 : k0 = k'
        · rw [if_pos h2, if_pos h2]
        · rw [if_neg h2, if_neg h2, ih, if_neg h1]

theorem alRemove_sublist {α : Type} (m : List (Str × α)) (k : Str) :
    (alRemove m k).Sublist m := by
  induction m with
  | nil => simp [alRemove]
  | cons kv rest ih =>
    obtain ⟨k0, v0⟩ := kv
    by_cases h0 : k0 = k
    · simp only [alRemove, if_pos h0]
      exact ih.trans (List.sublist_cons_self _ _)
    · simp only [alRemove, if_neg h0]
      exact ih.cons₂ _

theorem alRemove_eq_self {α : Type} (m : List (Str × α)) (k : Str)
    (h : alGet m k = none) : alRemove m k = m := by
  induction m with
  | nil => rfl
  | cons kv rest ih =>
    obtain ⟨k0, v0⟩ := kv
    simp only [alGet] at h
    by_cases h0 : k0 = k
    · rw [if_pos h0] at h
      exact absurd h (Option.some_ne_none _)
    · rw [if_neg h0] at h
      simp only [alRemove, if_neg h0]
      rw [ih h]

theorem mem_of_alGet_some {α : Type} (m : List (Str × α)) (k : Str) (v : α)
    (h : alGet m k = some v) : (k, v) ∈ m := by
  induction m with
  | nil => simp [alGet] at h
  | cons kv rest ih =>
    obtain ⟨k0, v0⟩ := kv
    simp only [alGet] at h
    by_cases h0 : k0 = k
    · rw [if_pos h0] at h
      cases h
      subst h0
      exact List.mem_cons_self _ _
    · rw [if_neg h0] at h
      exact List.mem_cons_of_mem _ (ih h)

theorem mem_keys_alSet {α : Type} (m : List (Str × α)) (k : Str) (v : α) (x : Str) :
    x ∈ (alSet m k v).map Prod.fst ↔ x = k ∨ x ∈ m.map Prod.fst := by
  induction m with
  | nil => simp [alSet]
  | cons kv rest ih =>
    obtain ⟨k0, v0⟩ := kv
    by_cases h0 : k0 = k
    · subst h0
      have hset : alSet ((k0, v0) :: rest) k0 v = (k0, v) :: rest := by simp [alSet]
      rw [hset]
      simp only [List.map_cons, List.mem_cons]
      tauto
    · simp only [alSet, if_neg h0, List.map_cons, List.mem_cons, ih]
      tauto

theorem nodup_keys_alSet {α : Type} (m : List (Str × α)) (k : Str) (v : α)
    (h : (m.map Prod.fst).Nodup) : ((alSet m k v).map Prod.fst).Nodup := by
  induction m with
  | nil => simp [alSet]
  | cons kv rest ih =>
    obtain ⟨k0, v0⟩ := kv
    simp only [List.map_cons, List.nodup_cons] at h
    obtain ⟨hk0, hrest⟩ := h
    by_cases h0 : k0 = k
    · subst h0
      have hset : alSet ((k0, v0) :: rest) k0 v = (k0, v) :: rest := by simp [alSet]
      rw [hset]
      simp only [List.map_cons, List.nodup_cons]
      exact ⟨hk0, hrest⟩
    · simp only [alSet, if_neg h0, List.map_cons, List.nodup_cons]
      refine ⟨?_, ih hrest⟩
      intro hmem
      rcases (mem_keys_alSet rest k v k0).mp hmem with he | hm
      · exact h0 he
      · exact hk0 hm

theorem alGet_deleteNames (L : List Str) :
    ∀ (m : FileMap) (k : Str),
      alGet (deleteNames L m) k = if k ∈ L then none else alGet m k := by
  induction L with
  | nil => intro m k; simp [deleteNames]
  | cons a L' ih =>
    intro m k
    have h1 : deleteNames (a :: L') m = deleteNames L' (alRemove m a) := rfl
    rw [h1, ih]
    by_cases hk : k ∈ L'
    · rw [if_pos hk, if_pos (List.mem_cons_of_mem a hk)]
    · rw [if_neg hk, alGet_remove]
      by_cases hka : k = a
      · rw [if_pos hka, if_pos (by simp [hka])]
      · rw [if_neg hka, if_neg (by simp [List.mem_cons, hka, hk])]

theorem deleteNames_sublist (L : List Str) :
    ∀ m : FileMap, (deleteNames L m).Sublist m := by
  induction L with
  | nil => intro m; exact List.Sublist.refl m
  | cons a L' ih =>
    intro m
    exact (ih (alRemove m a)).trans (alRemove_sublist m a)

theorem deleteNames_eq_self (L : List Str) :
    ∀ m : FileMap, (∀ k ∈ L, alGet m k = none) → deleteNames L m = m := by
  induction L with
  | nil => intro m _; rfl
  | cons a L' ih =>
    intro m h
    have h1 : deleteNames (a :: L') m = deleteNames L' (alRemove m a) := rfl
    rw [h1, alRemove_eq_self m a (h a (List.mem_cons_self a L'))]
    exact ih m (fun k hk => h k (List.mem_cons_of_mem _ hk))

theorem deleteNames_idem (L : List Str) (m : FileMap) :
    deleteNames L (deleteNames L m) = deleteNames L m :=
  deleteNames_eq_self L _ (fun k hk => by rw [alGet_deleteNames, if_pos hk])

theorem foldl_set_get_not_mem :
    ∀ (fs : List UploadedFile) (m : FileMap) (k : Str),
      k ∉ fs.map UploadedFile.name →
      alGet (fs.foldl (fun m f => alSet m f.name ⟨f.content, f.type⟩) m) k = alGet m k := by
  intro fs
  induction fs with
  | nil => intro m k _; rfl
  | cons g rest ih =>
    intro m k hk
    simp only [List.map_cons, List.mem_cons] at hk
    push_neg at hk
    rw [List.foldl_cons, ih _ k hk.2, alGet_set_ne _ _ _ _ hk.1]

theorem foldl_set_get_mem :
    ∀ (fs : List UploadedFile) (m : FileMap) (f : UploadedFile),
      f ∈ fs → (fs.map UploadedFile.name).Nodup →
      alGet (fs.foldl (fun m f => alSet m f.name ⟨f.content, f.type⟩) m) f.name
        = some ⟨f.content, f.type⟩ := by
  intro fs
  induction fs with
  | nil => intro m f hf; simp at hf
  | cons g rest ih =>
    intro m f hf hnd
    simp only [List.map_cons, List.nodup_cons] at hnd
    rcases List.mem_cons.mp hf with he | hm
    · subst he
      rw [List.foldl_cons, foldl_set_get_not_mem rest _ f.name hnd.1]
      exact alGet_set_self _ _ _
    · rw [List.foldl_cons]
      exact ih _ f hm hnd.2

theorem foldl_set_isSome :
    ∀ (fs : List UploadedFile) (m : FileMap) (k : Str),
      (alGet (fs.foldl (fun m f => alSet m f.name ⟨f.content, f.type⟩) m) k).isSome = true ↔
        k ∈ fs.map UploadedFile.name ∨ (alGet m k).isSome = true := by
  intro fs
  induction fs with
  | nil => intro m k; simp
  | cons g rest ih =>
    intro m k
    rw [List.foldl_cons, ih, alGet_set_isSome]
    simp only [List.map_cons, List.mem_cons]
    tauto

theorem foldl_set_nodup :
    ∀ (fs : List UploadedFile) (m : FileMap), (m.map Prod.fst).Nodup →
      ((fs.foldl (fun m f => alSet m f.name ⟨f.content, f.type⟩) m).map Prod.fst).Nodup := by
  intro fs
  induction fs with
  | nil => intro m h; exact h
  | cons g rest ih =>
    intro m h
    rw [List.foldl_cons]
    exact ih _ (nodup_keys_alSet _ _ _ h)

theorem applyEditOp_fst_cases (st : FileMap × List Diag) (op : EditOp) :
    (applyEditOp st op).1 = st.1 ∨
      ((alGet st.1 op.fileName).isSome = true ∧
       ∃ d, (applyEditOp st op).1 = alSet st.1 op.fileName d) := by
  cases hget : alGet st.1 op.fileName with
  | none =>
    left
    simp only [applyEditOp, hget]
  | some fd =>
    right
    refine ⟨by simp [hget], ?_⟩
    simp only [applyEditOp, hget]
    repeat' first
    | exact ⟨_, rfl⟩
    | split

theorem applyEditOp_get_ne (st : FileMap × List Diag) (op : EditOp) (k : Str)
    (hk : k ≠ op.fileName) : alGet (applyEditOp st op).1 k = alGet st.1 k := by
  rcases applyEditOp_fst_cases st op with h | ⟨_, d, h⟩
  · rw [h]
  · rw [h, alGet_set_ne _ _ _ _ hk]

theorem applyEditOp_isSome (st : FileMap × List Diag) (op : EditOp) (k : Str) :
    (alGet (applyEditOp st op).1 k).isSome = (alGet st.1 k).isSome := by
  rcases applyEditOp_fst_cases st op with h | ⟨hs, d, h⟩
  · rw [h]
  · rw [h]
    by_cases hk : k = op.fileName
    · subst hk
      rw [alGet_set_self]
      simp [hs]
    · rw [alGet_set_ne _ _ _ _ hk]

theorem applyEditOp_nodup (st : FileMap × List Diag) (op : EditOp)
    (h : (st.1.map Prod.fst).Nodup) : ((applyEditOp st op).1.map Prod.fst).Nodup := by
  rcases applyEditOp_fst_cases st op with hc | ⟨_, d, hc⟩
  · rw [hc]; exact h
  · rw [hc]; exact nodup_keys_alSet _ _ _ h

theorem foldl_applyEditOp_get_ne (ops : List EditOp) :
    ∀ (st : FileMap × List Diag) (k : Str), (∀ op ∈ ops, k ≠ op.fileName) →
      alGet (ops.foldl applyEditOp st).1 k = alGet st.1 k := by
  induction ops with
  | nil => intro st k _; rfl
  | cons op rest ih =>
    intro st k h
    rw [List.foldl_cons, ih _ k (fun o ho => h o (List.mem_cons_of_mem _ ho)),
      applyEditOp_get_ne st op k (h op (List.mem_cons_self _ _))]

theorem foldl_applyEditOp_isSome (ops : List EditOp) :
    ∀ (st : FileMap × List Diag) (k : Str),
      (alGet (ops.foldl applyEditOp st).1 k).isSome = (alGet st.1 k).isSome := by
  induction ops with
  | nil => intro st k; rfl
  | cons op rest ih =>
    intro st k
    rw [List.foldl_cons, ih _ k, applyEditOp_isSome st op k]

theorem foldl_applyEditOp_nodup (ops : List EditOp) :
    ∀ (st : FileMap × List Diag), (st.1.map Prod.fst).Nodup →
      ((ops.foldl applyEditOp st).1.map Prod.fst).Nodup := by
  induction ops with
  | nil => intro st h; exact h
  | cons op rest ih =>
    intro st h
    rw [List.foldl_cons]
    exact ih _ (applyEditOp_nodup st op h)

theorem applyNewFile_get_ne (st : FileMap × List Diag) (nf : NewFileEntry) (k : Str)
    (hk : k ≠ nf.fileName) : alGet (applyNewFile st nf).1 k = alGet st.1 k :=
  alGet_set_ne _ _ _ _ hk

theorem applyNewFile_get_self (st : FileMap × List Diag) (nf : NewFileEntry) :
    alGet (applyNewFile st nf).1 nf.fileName = some ⟨nf.code, inferType nf.fileName⟩ :=
  alGet_set_self _ _ _

theorem applyNewFile_isSome (st : FileMap × List Diag) (nf : NewFileEntry) (k : Str) :
    (alGet (applyNewFile st nf).1 k).isSome = true ↔
      k = nf.fileName ∨ (alGet st.1 k).isSome = true :=
  alGet_set_isSome _ _ _ _

theorem applyNewFile_nodup (st : FileMap × List Diag) (nf : NewFileEntry)
    (h : (st.1.map Prod.fst).Nodup) : ((applyNewFile st nf).1.map Prod.fst).Nodup :=
  nodup_keys_alSet _ _ _ h

theorem foldl_applyNewFile_get_ne (nfs : List NewFileEntry) :
    ∀ (st : FileMap × List Diag) (k : Str), (∀ nf ∈ nfs, k ≠ nf.fileName) →
      alGet (nfs.foldl applyNewFile st).1 k = alGet st.1 k := by
  induction nfs with
  | nil => intro st k _; rfl
  | cons nf rest ih =>
    intro st k h
    rw [List.foldl_cons, ih _ k (fun o ho => h o (List.mem_cons_of_mem _ ho)),
      applyNewFile_get_ne st nf k (h nf (List.mem_cons_self _ _))]

theorem foldl_applyNewFile_isSome (nfs : List NewFileEntry) :
    ∀ (st : FileMap × List Diag) (k : Str),
      (alGet (nfs.foldl applyNewFile st).1 k).isSome = true ↔
        k ∈ nfs.map NewFileEntry.fileName ∨ (alGet st.1 k).isSome = true := by
  induction nfs with
  | nil => intro st k; simp
  | cons nf rest ih =>
    intro st k
    rw [List.foldl_cons, ih, applyNewFile_isSome]
    simp only [List.map_cons, List.mem_cons]
    tauto

theorem foldl_applyNewFile_nodup (nfs : List NewFileEntry) :
    ∀ (st : FileMap × List Diag), (st.1.map Prod.fst).Nodup →
      ((nfs.foldl applyNewFile st).1.map Prod.fst).Nodup := by
  induction nfs with
  | nil => intro st h; exact h
  | cons nf rest ih =>
    intro st h
    rw [List.foldl_cons]
    exact ih _ (applyNewFile_nodup st nf h)

theorem mem_filesOfMap_of_get (m : FileMap) (k : Str) (d : FileData)
    (h : alGet m k = some d) : (⟨k, d.content, d.type⟩ : UploadedFile) ∈ filesOfMap m :=
  List.mem_map.mpr ⟨(k, d), mem_of_alGet_some m k d h, rfl⟩

theorem names_filesOfMap (m : FileMap) :
    (filesOfMap m).map UploadedFile.name = m.map Prod.fst := by
  simp only [filesOfMap, List.map_map]
  rfl

theorem applyEditOp_anchored (st : FileMap × List Diag) (op : EditOp) (fd : FileData)
    (hget : alGet st.1 op.fileName = some fd)
    (himg : (str "image/").isPrefixOf fd.type = false)
    (hc : containsSub (op.before ++ op.codeToDelete ++ op.after) fd.content = true) :
    applyEditOp st op =
      (alSet st.1 op.fileName
        ⟨jsReplace fd.content (op.before ++ op.codeToDelete ++ op.after)
          (op.before ++ op.newCodeOrEmpty ++ op.after), fd.type⟩, st.2) := by
  rw [List.append_assoc] at hc
  simp [applyEditOp, hget, himg, hc]

theorem applyEditOp_fallback (st : FileMap × List Diag) (op : EditOp) (fd : FileData)
    (hget : alGet st.1 op.fileName = some fd)
    (himg : (str "image/").isPrefixOf fd.type = false)
    (hc : containsSub (op.before ++ op.codeToDelete ++ op.after) fd.content = false)
    (hctd : op.codeToDelete ≠ [])
    (hocc : countOccs op.codeToDelete fd.content = 1) :
    applyEditOp st op =
      (alSet st.1 op.fileName
        ⟨jsReplace fd.content op.codeToDelete op.newCodeOrEmpty, fd.type⟩,
       st.2 ++ [Diag.fallbackApplied op.fileName]) := by
  rw [List.append_assoc] at hc
  simp [applyEditOp, hget, himg, hc, hctd, hocc]

theorem applyEditOp_skip (st : FileMap × List Diag) (op : EditOp) (fd : FileData)
    (hget : alGet st.1 op.fileName = some fd)
    (himg : (str "image/").isPrefixOf fd.type = false)
    (hc : containsSub (op.before ++ op.codeToDelete ++ op.after) fd.content = false)
    (hno : ¬(op.codeToDelete ≠ [] ∧ countOccs op.codeToDelete fd.content = 1)) :
    applyEditOp st op =
      (st.1,
       st.2 ++ [Diag.opSkipped op.fileName
         (if op.codeToDelete = [] then 0 else countOccs op.codeToDelete fd.content)]) := by
  rw [List.append_assoc] at hc
  by_cases hctd : op.codeToDelete = []
  · rw [hctd, List.nil_append] at hc
    simp [applyEditOp, hget, himg, hc, hctd, alSet_same st.1 op.fileName fd hget]
  · have hocc : ¬(countOccs op.codeToDelete fd.content = 1) := fun he => hno ⟨hctd, he⟩
    simp [applyEditOp, hget, himg, hc, hctd, hocc, alSet_same st.1 op.fileName fd hget]

theorem applyEditOp_image_del (st : FileMap × List Diag) (d : Deletion) (fd : FileData)
    (hget : alGet st.1 (EditOp.del d).fileName = some fd)
    (himg : (str "image/").isPrefixOf fd.type = true) :
    applyEditOp st (EditOp.del d) = (st.1, st.2) := by
  simp [applyEditOp, hget, himg, alSet_same st.1 (EditOp.del d).fileName fd hget]

/-- Wrap a single in-place operation as a full plan (the group it belongs to
is determined by its shape, as in `applyChanges`). -/
def planOfOp : EditOp → ModificationPlan
  | .del d => ⟨[d], [], [], [], none⟩
  | .mod m => ⟨[], [m], [], [], none⟩

theorem applyChanges_singleton (f : UploadedFile) (op : EditOp) :
    applyChanges [f] (planOfOp op) =
      (filesOfMap (applyEditOp ([(f.name, ⟨f.content, f.type⟩)], []) op).1,
       (applyEditOp ([(f.name, ⟨f.content, f.type⟩)], []) op).2) := by
  cases op with
  | del d => rfl
  | mod m => rfl

theorem anchored_applyEditOp
    (st : FileMap × List Diag) (op : EditOp) (fd : FileData) (p q : Str)
    (hget : alGet st.1 op.fileName = some fd)
    (himg : (str "image/").isPrefixOf fd.type = false)
    (hsplit : fd.content = p ++ (op.before ++ op.codeToDelete ++ op.after) ++ q)
    (hfirst : ∀ p' q', fd.content = p' ++ (op.before ++ op.codeToDelete ++ op.after) ++ q' →
        p.length ≤ p'.length)
    (hnd : '$' ∉ op.before ++ op.newCodeOrEmpty ++ op.after) :
    applyEditOp st op =
      (alSet st.1 op.fileName
        ⟨p ++ (op.before ++ op.newCodeOrEmpty ++ op.after) ++ q, fd.type⟩, st.2) := by
  have hc : containsSub (op.before ++ op.codeToDelete ++ op.after) fd.content = true :=
    (containsSub_iff _ _).mpr ⟨p, q, hsplit⟩
  rw [applyEditOp_anchored st op fd hget himg hc,
    jsReplace_first fd.content _ _ p q hsplit hfirst hnd]

/-- C1, counterexample.  The claim states that the anchored replacement is
inserted literally; but `String.prototype.replace` expands `$`-patterns in
its replacement argument, so a `newCode` of `"$&$&"` duplicates the matched
anchored target instead of being inserted verbatim: on a text file `a.txt`
containing `"abc"`, the anchored target `"" + "abc" + ""` occurs, yet the
result content is `"abcabc"`, not the anchored replacement `"$&$&"`. -/
theorem C1_counterexample :
    (applyChanges [⟨str "a.txt", str "abc", str "text/plain"⟩]
        ⟨[], [⟨str "a.txt", [], str "abc", str "$&$&", []⟩], [], [], none⟩).1
      = [⟨str "a.txt", str "abcabc", str "text/plain"⟩]
    ∧ containsSub ([] ++ str "abc" ++ []) (str "abc") = true
    ∧ str "abcabc" ≠ [] ++ str "$&$&" ++ [] := by decide

/-- C1 (amended): for a text-kind file (MIME type not starting with
`image/`) and a Deletion or Modification whose anchored target
`before + codeToDelete + after` occurs in the current content, and whose
anchored replacement (`before + newCode + after` for a Modification,
`before + after` for a Deletion) contains no `'$'` character, `applyChanges`
replaces exactly the first occurrence of the anchored target with the
anchored replacement and leaves every other character unchanged.  (The
`'$'`-freedom hypothesis is forced by the counterexample: JS `replace`
expands `$`-substitution patterns.)  Stated for the per-operation step
`applyEditOp` on an arbitrary working map, and for `applyChanges` on a
single-file, single-operation plan. -/
theorem C1_anchored_replacement :
    (∀ (st : FileMap × List Diag) (op : EditOp) (fd : FileData) (p q : Str),
      alGet st.1 op.fileName = some fd →
      (str "image/").isPrefixOf fd.type = false →
      fd.content = p ++ (op.before ++ op.codeToDelete ++ op.after) ++ q →
      (∀ p' q', fd.content = p' ++ (op.before ++ op.codeToDelete ++ op.after) ++ q' →
        p.length ≤ p'.length) →
      '$' ∉ op.before ++ op.newCodeOrEmpty ++ op.after →
      applyEditOp st op =
        (alSet st.1 op.fileName
          ⟨p ++ (op.before ++ op.newCodeOrEmpty ++ op.after) ++ q, fd.type⟩, st.2))
    ∧ (∀ (f : UploadedFile) (op : EditOp) (p q : Str),
      op.fileName = f.name →
      (str "image/").isPrefixOf f.type = false →
      f.content = p ++ (op.before ++ op.codeToDelete ++ op.after) ++ q →
      (∀ p' q', f.content = p' ++ (op.before ++ op.codeToDelete ++ op.after) ++ q' →
        p.length ≤ p'.length) →
      '$' ∉ op.before ++ op.newCodeOrEmpty ++ op.after →
      applyChanges [f] (planOfOp op) =
        ([⟨f.name, p ++ (op.before ++ op.newCodeOrEmpty ++ op.after) ++ q, f.type⟩], [])) := by
  refine ⟨anchored_applyEditOp, ?_⟩
  intro f op p q hname himg hsplit hfirst hnd
  rw [applyChanges_singleton]
  have hget : alGet [(f.name, (⟨f.content, f.type⟩ : FileData))] op.fileName
      = some ⟨f.content, f.type⟩ := by
    rw [hname]
    simp [alGet]
  have h := anchored_applyEditOp ([(f.name, ⟨f.content, f.type⟩)], []) op
    ⟨f.content, f.type⟩ p q hget himg hsplit hfirst hnd
  rw [h, hname]
  have hset : alSet [(f.name, (⟨f.content, f.type⟩ : FileData))] f.name
      (⟨p ++ (op.before ++ op.newCodeOrEmpty ++ op.after) ++ q, f.type⟩ : FileData)
      = [(f.name, ⟨p ++ (op.before ++ op.newCodeOrEmpty ++ op.after) ++ q, f.type⟩)] := by
    simp [alSet]
  rw [hset]
  rfl

/-- C1, witness: the amended theorem applied at a concrete input — file
`"a.txt"` containing `"abc"`, Modification `before="a"`, `codeToDelete="b"`,
`newCode="B"`, `after="c"`, giving content `"aBc"`. -/
theorem C1_witness :
    applyChanges [⟨str "a.txt", str "abc", str "text/plain"⟩]
        (planOfOp (EditOp.mod ⟨str "a.txt", str "a", str "b", str "B", str "c"⟩))
      = ([⟨str "a.txt", str "aBc", str "text/plain"⟩], []) := by
  have h := C1_anchored_replacement.2 ⟨str "a.txt", str "abc", str "text/plain"⟩
    (EditOp.mod ⟨str "a.txt", str "a", str "b", str "B", str "c"⟩) [] []
    (by decide) (by decide) (by decide)
    (fun p' q' _ => Nat.zero_le _) (by decide)
  exact h.trans (by decide)

/-- C2, counterexample.  The fallback replacement is also performed by JS
`replace`, which expands `$`-patterns in `newCode`: on a text file
containing `"abc"` with a stale anchor (`before="z"`, `after="z"`),
`codeToDelete="b"` occurring exactly once and `newCode="$&$&"`, the direct
replacement produces `"abbc"` (the matched `"b"` duplicated), not
`"a" + "$&$&" + "c"` as the claim requires. -/
theorem C2_counterexample :
    (applyChanges [⟨str "a.txt", str "abc", str "text/plain"⟩]
        ⟨[], [⟨str "a.txt", str "z", str "b", str "$&$&", str "z"⟩], [], [], none⟩).1
      = [⟨str "a.txt", str "abbc", str "text/plain"⟩]
    ∧ subCount (str "b") (str "abc") = 1
    ∧ containsSub (str "z" ++ str "b" ++ str "z") (str "abc") = false
    ∧ str "abbc" ≠ str "a" ++ str "$&$&" ++ str "c" := by decide

/-- C2 (amended): for a text-kind file and a Deletion or Modification whose
anchored target does not occur in the content, if `codeToDelete` is
non-empty, occurs at exactly one position of the content, and the direct
replacement (`newCode` for a Modification, empty for a Deletion) contains no
`'$'` character, then `applyEditOp` performs the direct unanchored
replacement of that single occurrence and records the fallback diagnostic.
(The `'$'`-freedom hypothesis is forced by the counterexample.) -/
theorem C2_fallback_replacement
    (st : FileMap × List Diag) (op : EditOp) (fd : FileData) (p q : Str)
    (hget : alGet st.1 op.fileName = some fd)
    (himg : (str "image/").isPrefixOf fd.type = false)
    (hnf : ∀ p' q', fd.content ≠ p' ++ (op.before ++ op.codeToDelete ++ op.after) ++ q')
    (hctd : op.codeToDelete ≠ [])
    (honce : subCount op.codeToDelete fd.content = 1)
    (hsplit : fd.content = p ++ op.codeToDelete ++ q)
    (hnd : '$' ∉ op.newCodeOrEmpty) :
    applyEditOp st op =
      (alSet st.1 op.fileName ⟨p ++ op.newCodeOrEmpty ++ q, fd.type⟩,
       st.2 ++ [Diag.fallbackApplied op.fileName]) := by
  have hc : containsSub (op.before ++ op.codeToDelete ++ op.after) fd.content = false :=
    (containsSub_eq_false_iff _ _).mpr hnf
  have h1 : 1 ≤ countOccs op.codeToDelete fd.content := by
    have := countOccs_pos op.codeToDelete hctd p q
    rw [← hsplit] at this
    exact this
  have h2 : countOccs op.codeToDelete fd.content ≤ 1 := by
    have := countOccs_le_subCount op.codeToDelete fd.content
    omega
  have hocc : countOccs op.codeToDelete fd.content = 1 := le_antisymm h2 h1
  rw [applyEditOp_fallback st op fd hget himg hc hctd hocc]
  have hfirst : ∀ p' q', fd.content = p' ++ op.codeToDelete ++ q' → p.length ≤ p'.length := by
    intro p' q' h'
    by_contra hlt
    push_neg at hlt
    have heq : p' ++ op.codeToDelete ++ q' = p ++ op.codeToDelete ++ q := by
      rw [← h', ← hsplit]
    have h2d := subCount_two op.codeToDelete p' q' p q heq hlt
    rw [← h'] at h2d
    omega
  rw [jsReplace_first fd.content op.codeToDelete op.newCodeOrEmpty p q hsplit hfirst hnd]

/-- C2, witness: the amended theorem at a concrete input — file `"f"`
containing `"abc"`, Modification with stale anchors `before="z"`,
`after="z"`, `codeToDelete="b"` (unique occurrence), `newCode="B"`; the
fallback rewrites the content to `"aBc"` and records the fallback
diagnostic. -/
theorem C2_witness :
    applyEditOp ([(str "f", (⟨str "abc", str "text/plain"⟩ : FileData))], [])
        (EditOp.mod ⟨str "f", str "z", str "b", str "B", str "z"⟩)
      = ([(str "f", ⟨str "aBc", str "text/plain"⟩)],
         [Diag.fallbackApplied (str "f")]) := by
  have h := C2_fallback_replacement
    ([(str "f", ⟨str "abc", str "text/plain"⟩)], [])
    (EditOp.mod ⟨str "f", str "z", str "b", str "B", str "z"⟩)
    ⟨str "abc", str "text/plain"⟩ (str "a") (str "c")
    (by decide) (by decide)
    ((containsSub_eq_false_iff _ _).mp (by decide))
    (by decide) (by decide) (by decide) (by decide)
  exact h.trans (by decide)

/-- C3, counterexample.  The claim counts occurrences of `codeToDelete` as
substring positions; the code counts non-overlapping regex matches.  On a
text file containing `"aaa"`, `codeToDelete="aa"` occurs at two positions
(so the claim requires the operation to be skipped and the file left
unchanged), but the global-regex count is 1, so the code applies the
fallback and rewrites the file to `"Xa"`, recording a fallback — not a
skip — diagnostic. -/
theorem C3_counterexample :
    (applyChanges [⟨str "f.txt", str "aaa", str "text/plain"⟩]
        ⟨[], [⟨str "f.txt", str "z", str "aa", str "X", []⟩], [], [], none⟩)
      = ([⟨str "f.txt", str "Xa", str "text/plain"⟩],
         [Diag.fallbackApplied (str "f.txt")])
    ∧ subCount (str "aa") (str "aaa") = 2
    ∧ containsSub (str "z" ++ str "aa" ++ []) (str "aaa") = false
    ∧ str "Xa" ≠ str "aaa" := by decide

/-- C3 (amended): for a text-kind file and a Deletion or Modification whose
anchored target does not occur in the content, if it is not the case that
`codeToDelete` is non-empty with exactly one *non-overlapping left-to-right
match* (the count produced by the global regex the code uses), the
operation is skipped: the working map is returned exactly unchanged — so
every later operation of the plan still applies to the same state — and a
skip diagnostic carrying the computed occurrence count is recorded.
(The claim's position-based occurrence count is amended to the code's
non-overlapping match count, as forced by the counterexample.) -/
theorem C3_unresolved_skip
    (st : FileMap × List Diag) (op : EditOp) (fd : FileData)
    (hget : alGet st.1 op.fileName = some fd)
    (himg : (str "image/").isPrefixOf fd.type = false)
    (hnf : ∀ p' q', fd.content ≠ p' ++ (op.before ++ op.codeToDelete ++ op.after) ++ q')
    (hno : ¬(op.codeToDelete ≠ [] ∧ countOccs op.codeToDelete fd.content = 1)) :
    applyEditOp st op =
      (st.1, st.2 ++ [Diag.opSkipped op.fileName
        (if op.codeToDelete = [] then 0 else countOccs op.codeToDelete fd.content)]) := by
  have hc : containsSub (op.before ++ op.codeToDelete ++ op.after) fd.content = false :=
    (containsSub_eq_false_iff _ _).mpr hnf
  exact applyEditOp_skip st op fd hget himg hc hno

/-- C3, witness: the amended theorem at a concrete input — file `"f"`
containing `"abc"`, Deletion with `codeToDelete="q"` occurring zero times
and a stale anchor: the map is unchanged and a skip diagnostic with count 0
is recorded. -/
theorem C3_witness :
    applyEditOp ([(str "f", (⟨str "abc", str "text/plain"⟩ : FileData))], [])
        (EditOp.del ⟨str "f", str "z", str "q", str "z"⟩)
      = ([(str "f", ⟨str "abc", str "text/plain"⟩)],
         [Diag.opSkipped (str "f") 0]) := by
  have h := C3_unresolved_skip
    ([(str "f", ⟨str "abc", str "text/plain"⟩)], [])
    (EditOp.del ⟨str "f", str "z", str "q", str "z"⟩)
    ⟨str "abc", str "text/plain"⟩
    (by decide) (by decide)
    ((containsSub_eq_false_iff _ _).mp (by decide))
    (by decide)
  exact h.trans (by decide)

/-- C10: for a file record whose MIME type starts with `image/`, a Deletion
operation targeting it is silently ignored: `applyEditOp` returns the state
exactly unchanged — same content, same type, and no diagnostic appended. -/
theorem C10_image_deletion_ignored
    (st : FileMap × List Diag) (d : Deletion) (fd : FileData)
    (hget : alGet st.1 d.fileName = some fd)
    (himg : (str "image/").isPrefixOf fd.type = true) :
    applyEditOp st (EditOp.del d) = st := by
  have h := applyEditOp_image_del st d fd hget himg
  rw [h]

/-- C10, witness: a Deletion aimed at an `image/png` record leaves the
state untouched and emits no diagnostic. -/
theorem C10_witness :
    applyEditOp ([(str "a.png", (⟨str "IMGDATA", str "image/png"⟩ : FileData))], [])
        (EditOp.del ⟨str "a.png", [], str "IMGDATA", []⟩)
      = ([(str "a.png", ⟨str "IMGDATA", str "image/png"⟩)], []) :=
  C10_image_deletion_ignored
    ([(str "a.png", ⟨str "IMGDATA", str "image/png"⟩)], [])
    ⟨str "a.png", [], str "IMGDATA", []⟩
    ⟨str "IMGDATA", str "image/png"⟩
    (by decide) (by decide)

theorem foldl_set_cons_fresh (fs : List UploadedFile) :
    ∀ (m : FileMap) (k : Str) (v : FileData), (∀ f ∈ fs, f.name ≠ k) →
      fs.foldl (fun m f => alSet m f.name ⟨f.content, f.type⟩) ((k, v) :: m)
        = (k, v) :: fs.foldl (fun m f => alSet m f.name ⟨f.content, f.type⟩) m := by
  induction fs with
  | nil => intro m k v _; rfl
  | cons g rest ih =>
    intro m k v h
    have hg : g.name ≠ k := h g (List.mem_cons_self _ _)
    have hk : ¬(k = g.name) := fun e => hg (Eq.symm e)
    rw [List.foldl_cons, List.foldl_cons]
    have hset : alSet ((k, v) :: m) g.name (⟨g.content, g.type⟩ : FileData)
        = (k, v) :: alSet m g.name ⟨g.content, g.type⟩ := by
      simp only [alSet, if_neg hk]
    rw [hset, ih _ k v (fun f hf => h f (List.mem_cons_of_mem _ hf))]

theorem buildMap_filesOfMap (m : FileMap) (h : (m.map Prod.fst).Nodup) :
    buildMap (filesOfMap m) = m := by
  induction m with
  | nil => rfl
  | cons kv rest ih =>
    obtain ⟨k, d⟩ := kv
    simp only [List.map_cons, List.nodup_cons] at h
    obtain ⟨hk, hrest⟩ := h
    have hfresh : ∀ f ∈ filesOfMap rest, f.name ≠ k := by
      intro f hf he
      apply hk
      rw [← he, ← names_filesOfMap rest]
      exact List.mem_map_of_mem UploadedFile.name hf
    have h0 : buildMap (filesOfMap ((k, d) :: rest))
        = (filesOfMap rest).foldl (fun m f => alSet m f.name ⟨f.content, f.type⟩) [(k, d)] := rfl
    rw [h0, foldl_set_cons_fresh (filesOfMap rest) [] k d hfresh]
    have h1 : (filesOfMap rest).foldl (fun m f => alSet m f.name ⟨f.content, f.type⟩) []
        = buildMap (filesOfMap rest) := rfl
    rw [h1, ih hrest]

/-- C4: `applyChanges` applies a plan in the fixed order: whole-file
deletions first (so a deleteFiles-only plan is idempotent), then all
`delete` operations, then all `modify` operations, each threaded through the
result of the previous one; an operation whose file is absent from the
working set is a no-op on the map (recording only a missing-file
diagnostic); and a name removed by `deleteFiles` and not re-created by
`newFiles` is absent from the result. -/
theorem C4_plan_order :
    (∀ (fs : List UploadedFile) (L : List Str),
      applyChanges (applyChanges fs ⟨[], [], [], L, none⟩).1 ⟨[], [], [], L, none⟩
        = applyChanges fs ⟨[], [], [], L, none⟩)
    ∧ (∀ (plan : ModificationPlan) (st : FileMap × List Diag),
      (plan.delete.map EditOp.del ++ plan.modify.map EditOp.mod).foldl applyEditOp st
        = (plan.modify.map EditOp.mod).foldl applyEditOp
            ((plan.delete.map EditOp.del).foldl applyEditOp st))
    ∧ (∀ (m : FileMap) (ds : List Diag) (op : EditOp),
      alGet m op.fileName = none →
      applyEditOp (m, ds) op = (m, ds ++ [Diag.fileNotFound op.fileName]))
    ∧ (∀ (fs : List UploadedFile) (plan : ModificationPlan) (name : Str),
      name ∈ plan.deleteFiles →
      (∀ nf ∈ plan.newFiles, nf.fileName ≠ name) →
      name ∉ (applyChanges fs plan).1.map UploadedFile.name) := by
  refine ⟨?_, ?_, ?_, ?_⟩
  · intro fs L
    have h0 : applyChanges fs ⟨[], [], [], L, none⟩
        = (filesOfMap (deleteNames L (buildMap fs)), []) := rfl
    have hnd : ((deleteNames L (buildMap fs)).map Prod.fst).Nodup :=
      List.Nodup.sublist ((deleteNames_sublist L (buildMap fs)).map Prod.fst)
        (foldl_set_nodup fs [] (by simp))
    rw [h0]
    have h1 : applyChanges (filesOfMap (deleteNames L (buildMap fs))) ⟨[], [], [], L, none⟩
        = (filesOfMap (deleteNames L (buildMap (filesOfMap (deleteNames L (buildMap fs))))), []) :=
      rfl
    rw [h1, buildMap_filesOfMap _ hnd, deleteNames_idem]
  · intro plan st
    exact List.foldl_append _ _ _ _
  · intro m ds op hget
    simp only [applyEditOp, hget]
  · intro fs plan name hdel hnf
    have hrw : (applyChanges fs plan).1
        = filesOfMap ((plan.newFiles.foldl applyNewFile
            ((plan.delete.map EditOp.del ++ plan.modify.map EditOp.mod).foldl applyEditOp
              (deleteNames plan.deleteFiles (buildMap fs), []))).1) := rfl
    rw [hrw, names_filesOfMap]
    intro hmem
    have hsome := (alGet_isSome_iff _ name).mpr hmem
    rcases (foldl_applyNewFile_isSome plan.newFiles _ name).mp hsome with hin | hin
    · rcases List.mem_map.mp hin with ⟨nf, hnfmem, hnme⟩
      exact hnf nf hnfmem hnme
    · rw [foldl_applyEditOp_isSome] at hin
      have hnone : alGet (deleteNames plan.deleteFiles (buildMap fs)) name = none := by
        rw [alGet_deleteNames, if_pos hdel]
      rw [hnone] at hin
      exact absurd hin (by simp)

/-- C4, witness: the four parts of the ordering theorem instantiated at
concrete inputs — a two-file set with a deleteFiles-only plan applied
twice, a mixed plan's operation fold split into its delete and modify
groups, an operation aimed at a missing file, and a deleted name absent
from the result. -/
theorem C4_witness :
    (applyChanges
        (applyChanges [⟨str "a", str "1", str "text/plain"⟩, ⟨str "b", str "2", str "text/plain"⟩]
          ⟨[], [], [], [str "a"], none⟩).1
        ⟨[], [], [], [str "a"], none⟩
      = applyChanges [⟨str "a", str "1", str "text/plain"⟩, ⟨str "b", str "2", str "text/plain"⟩]
          ⟨[], [], [], [str "a"], none⟩)
    ∧ (([(⟨str "a", [], str "1", []⟩ : Deletion)].map EditOp.del
          ++ [(⟨str "b", [], str "2", str "3", []⟩ : Modification)].map EditOp.mod).foldl
            applyEditOp ([], [])
        = ([(⟨str "b", [], str "2", str "3", []⟩ : Modification)].map EditOp.mod).foldl
            applyEditOp
            (([(⟨str "a", [], str "1", []⟩ : Deletion)].map EditOp.del).foldl
              applyEditOp ([], [])))
    ∧ (applyEditOp ([], []) (EditOp.del ⟨str "ghost", [], [], []⟩)
        = ([], [Diag.fileNotFound (str "ghost")]))
    ∧ str "a" ∉ (applyChanges [⟨str "a", str "1", str "text/plain"⟩]
        ⟨[], [], [], [str "a"], none⟩).1.map UploadedFile.name := by
  refine ⟨C4_plan_order.1 _ _, C4_plan_order.2.1 ⟨[_], [_], [], [], none⟩ _, ?_, ?_⟩
  · exact C4_plan_order.2.2.1 [] [] (EditOp.del ⟨str "ghost", [], [], []⟩) (by decide)
  · exact C4_plan_order.2.2.2 _ _ _ (by decide) (by decide)

theorem buildMap_isSome (fs : List UploadedFile) (k : Str) :
    (alGet (buildMap fs) k).isSome = true ↔ k ∈ fs.map UploadedFile.name := by
  have h := foldl_set_isSome fs [] k
  rw [show (alGet ([] : FileMap) k) = none from rfl] at h
  simp only [Option.isSome_none, Bool.false_eq_true, or_false] at h
  exact h

/-- C5: `applyChanges` is a pure function of its inputs (the embedding is
purely functional, so the input list is never mutated); every record not
targeted by any operation of the plan reappears in the result with name,
content and MIME type identical; the result's names are duplicate-free; and
a name is present in the result exactly when it is created by `newFiles` or
was present initially and not removed by `deleteFiles`. -/
theorem C5_untouched_preserved :
    (∀ (fs : List UploadedFile) (plan : ModificationPlan) (f : UploadedFile),
      f ∈ fs → (fs.map UploadedFile.name).Nodup →
      f.name ∉ plan.deleteFiles →
      (∀ d ∈ plan.delete, d.fileName ≠ f.name) →
      (∀ mo ∈ plan.modify, mo.fileName ≠ f.name) →
      (∀ nf ∈ plan.newFiles, nf.fileName ≠ f.name) →
      f ∈ (applyChanges fs plan).1)
    ∧ (∀ (fs : List UploadedFile) (plan : ModificationPlan),
      ((applyChanges fs plan).1.map UploadedFile.name).Nodup)
    ∧ (∀ (fs : List UploadedFile) (plan : ModificationPlan) (name : Str),
      name ∈ (applyChanges fs plan).1.map UploadedFile.name ↔
        name ∈ plan.newFiles.map NewFileEntry.fileName
          ∨ (name ∈ fs.map UploadedFile.name ∧ name ∉ plan.deleteFiles)) := by
  refine ⟨?_, ?_, ?_⟩
  · intro fs plan f hf hnd hdelf hdels hmods hnfs
    have hrw : (applyChanges fs plan).1
        = filesOfMap ((plan.newFiles.foldl applyNewFile
            ((plan.delete.map EditOp.del ++ plan.modify.map EditOp.mod).foldl applyEditOp
              (deleteNames plan.deleteFiles (buildMap fs), []))).1) := rfl
    rw [hrw]
    have h0 : alGet (buildMap fs) f.name = some ⟨f.content, f.type⟩ :=
      foldl_set_get_mem fs [] f hf hnd
    have h1 : alGet (deleteNames plan.deleteFiles (buildMap fs)) f.name
        = some ⟨f.content, f.type⟩ := by
      rw [alGet_deleteNames, if_neg hdelf]
      exact h0
    have hops : ∀ op ∈ plan.delete.map EditOp.del ++ plan.modify.map EditOp.mod,
        f.name ≠ op.fileName := by
      intro op hop
      rcases List.mem_append.mp hop with hm | hm
      · rcases List.mem_map.mp hm with ⟨d, hd, rfl⟩
        exact fun e => hdels d hd (Eq.symm e)
      · rcases List.mem_map.mp hm with ⟨mo, hmo, rfl⟩
        exact fun e => hmods mo hmo (Eq.symm e)
    have h2 : alGet ((plan.delete.map EditOp.del ++ plan.modify.map EditOp.mod).foldl
        applyEditOp (deleteNames plan.deleteFiles (buildMap fs), [])).1 f.name
        = some ⟨f.content, f.type⟩ := by
      rw [foldl_applyEditOp_get_ne _ _ _ hops]
      exact h1
    have h3 : alGet ((plan.newFiles.foldl applyNewFile
        ((plan.delete.map EditOp.del ++ plan.modify.map EditOp.mod).foldl applyEditOp
          (deleteNames plan.deleteFiles (buildMap fs), []))).1) f.name
        = some ⟨f.content, f.type⟩ := by
      rw [foldl_applyNewFile_get_ne _ _ _ (fun nf hnf e => hnfs nf hnf (Eq.symm e))]
      exact h2
    exact mem_filesOfMap_of_get _ f.name ⟨f.content, f.type⟩ h3
  · intro fs plan
    have hrw : (applyChanges fs plan).1
        = filesOfMap ((plan.newFiles.foldl applyNewFile
            ((plan.delete.map EditOp.del ++ plan.modify.map EditOp.mod).foldl applyEditOp
              (deleteNames plan.deleteFiles (buildMap fs), []))).1) := rfl
    rw [hrw, names_filesOfMap]
    apply foldl_applyNewFile_nodup
    apply foldl_applyEditOp_nodup
    exact List.Nodup.sublist ((deleteNames_sublist _ _).map Prod.fst)
      (foldl_set_nodup fs [] (by simp))
  · intro fs plan name
    have hrw : (applyChanges fs plan).1
        = filesOfMap ((plan.newFiles.foldl applyNewFile
            ((plan.delete.map EditOp.del ++ plan.modify.map EditOp.mod).foldl applyEditOp
              (deleteNames plan.deleteFiles (buildMap fs), []))).1) := rfl
    rw [hrw, names_filesOfMap, ← alGet_isSome_iff,
      foldl_applyNewFile_isSome, foldl_applyEditOp_isSome, alGet_deleteNames]
    by_cases hL : name ∈ plan.deleteFiles
    · rw [if_pos hL]
      simp [hL]
    · rw [if_neg hL]
      rw [buildMap_isSome fs name]
      simp [hL]

/-- C5, witness: in a two-file set, a plan that modifies only `"b"` leaves
the record `"a"` present and bit-identical; its hypotheses are discharged
at the concrete input. -/
theorem C5_witness :
    (⟨str "a", str "1", str "text/plain"⟩ : UploadedFile) ∈
      (applyChanges [⟨str "a", str "1", str "text/plain"⟩, ⟨str "b", str "2", str "text/plain"⟩]
        ⟨[], [⟨str "b", [], str "2", str "3", []⟩], [], [], none⟩).1 :=
  C5_untouched_preserved.1 _ _ _ (by decide) (by decide) (by decide)
    (by decide) (by decide) (by decide)

/-- C6: each `plan.newFiles` entry `{fileName, code}` sets or overwrites the
record named `fileName` unconditionally, with content exactly `code` and a
MIME type inferred from the extension by the fixed table (`.js` → script,
`.css` → stylesheet, `.html` → markup, else plain text); in particular one
`x.css` entry applied to an empty set yields exactly one `text/css` record
with the given content. -/
theorem C6_new_files :
    (∀ (fs : List UploadedFile) (plan : ModificationPlan) (l1 l2 : List NewFileEntry)
        (e : NewFileEntry),
      plan.newFiles = l1 ++ e :: l2 →
      (∀ e' ∈ l2, e'.fileName ≠ e.fileName) →
      (⟨e.fileName, e.code, inferType e.fileName⟩ : UploadedFile) ∈ (applyChanges fs plan).1)
    ∧ (∀ name : Str,
      ((str ".js").isSuffixOf name = true → inferType name = str "application/javascript")
      ∧ ((str ".js").isSuffixOf name = false → (str ".css").isSuffixOf name = true →
          inferType name = str "text/css")
      ∧ ((str ".js").isSuffixOf name = false → (str ".css").isSuffixOf name = false →
          (str ".html").isSuffixOf name = true → inferType name = str "text/html")
      ∧ ((str ".js").isSuffixOf name = false → (str ".css").isSuffixOf name = false →
          (str ".html").isSuffixOf name = false → inferType name = str "text/plain"))
    ∧ (applyChanges [] ⟨[], [], [⟨str "x.css", str "body\x7b\x7d"⟩], [], none⟩
        = ([⟨str "x.css", str "body\x7b\x7d", str "text/css"⟩], [])) := by
  refine ⟨?_, ?_, by decide⟩
  · intro fs plan l1 l2 e hsplit hl2
    have hrw : (applyChanges fs plan).1
        = filesOfMap ((plan.newFiles.foldl applyNewFile
            ((plan.delete.map EditOp.del ++ plan.modify.map EditOp.mod).foldl applyEditOp
              (deleteNames plan.deleteFiles (buildMap fs), []))).1) := rfl
    rw [hrw, hsplit, List.foldl_append, List.foldl_cons]
    have hget : alGet (l2.foldl applyNewFile
        (applyNewFile (l1.foldl applyNewFile
          ((plan.delete.map EditOp.del ++ plan.modify.map EditOp.mod).foldl applyEditOp
            (deleteNames plan.deleteFiles (buildMap fs), [])) ) e)).1 e.fileName
        = some ⟨e.code, inferType e.fileName⟩ := by
      rw [foldl_applyNewFile_get_ne _ _ _ (fun e' he' hx => hl2 e' he' (Eq.symm hx))]
      exact applyNewFile_get_self _ e
    exact mem_filesOfMap_of_get _ e.fileName ⟨e.code, inferType e.fileName⟩ hget
  · intro name
    refine ⟨?_, ?_, ?_, ?_⟩
    · intro h1
      simp [inferType, h1]
    · intro h1 h2
      simp [inferType, h1, h2]
    · intro h1 h2 h3
      simp [inferType, h1, h2, h3]
    · intro h1 h2 h3
      simp [inferType, h1, h2, h3]

/-- C6, witness: a single `newFiles` entry `y.js` applied to an empty set
produces the record with the script MIME type; hypotheses of the general
part are discharged at the concrete input. -/
theorem C6_witness :
    (⟨str "y.js", str "1;", str "application/javascript"⟩ : UploadedFile) ∈
      (applyChanges [] ⟨[], [], [⟨str "y.js", str "1;"⟩], [], none⟩).1 :=
  C6_new_files.1 [] ⟨[], [], [⟨str "y.js", str "1;"⟩], [], none⟩ [] []
    ⟨str "y.js", str "1;"⟩ (by decide) (by decide)

/-- C7, counterexample.  The claim says MIME inference never applies to a
pre-existing file; but the code sets `{content, type}` unconditionally, with
`type` freshly inferred from the extension: overwriting the existing
`image/png` record `a.png` through `newFiles` leaves it typed `text/plain`,
not `image/png`. -/
theorem C7_counterexample :
    applyChanges [⟨str "a.png", str "IMGDATA", str "image/png"⟩]
        ⟨[], [], [⟨str "a.png", str "x"⟩], [], none⟩
      = ([⟨str "a.png", str "x", str "text/plain"⟩], [Diag.overwritten (str "a.png")])
    ∧ str "text/plain" ≠ str "image/png" := by decide

/-- C7 (amended): a `newFiles` entry whose `fileName` already names a record
in the working set overwrites *both* the content and the MIME type: the
stored record becomes `{code, inferType fileName}` — the extension-based
inference is applied to pre-existing files exactly as to brand-new ones —
and an overwrite warning is recorded. -/
theorem C7_overwrite_reinfers_type (st : FileMap × List Diag) (nf : NewFileEntry)
    (h : (alGet st.1 nf.fileName).isSome = true) :
    applyNewFile st nf
      = (alSet st.1 nf.fileName ⟨nf.code, inferType nf.fileName⟩,
         st.2 ++ [Diag.overwritten nf.fileName])
    ∧ alGet (applyNewFile st nf).1 nf.fileName = some ⟨nf.code, inferType nf.fileName⟩ := by
  constructor
  · simp [applyNewFile, h]
  · exact applyNewFile_get_self st nf

/-- C7, witness: the amended theorem at a concrete input — overwriting the
pre-existing `image/png` record `a.png` stores content `"x"` with the
re-inferred type `text/plain` and records the overwrite warning. -/
theorem C7_witness :
    applyNewFile ([(str "a.png", (⟨str "IMGDATA", str "image/png"⟩ : FileData))], [])
        ⟨str "a.png", str "x"⟩
      = ([(str "a.png", ⟨str "x", str "text/plain"⟩)], [Diag.overwritten (str "a.png")]) := by
  have h := C7_overwrite_reinfers_type
    ([(str "a.png", ⟨str "IMGDATA", str "image/png"⟩)], []) ⟨str "a.png", str "x"⟩ (by decide)
  exact h.1.trans (by decide)

/-- A value persisted in `localStorage`.  Storage is string-valued; the
JSON (de)serialization performed by `JSON.stringify` / `JSON.parse` — a
platform library call, not repository code — is modelled at value level:
`filesVal` is a serialized file array (JSON round-trips every field of this
shape exactly), `rawStr` is any other string (an entry `JSON.parse` rejects,
or the counter value). -/
inductive StoreValue where
  | rawStr (s : Str)
  | filesVal (fs : List UploadedFile)
deriving DecidableEq

abbrev Store := List (Str × StoreValue)

/-- The persistence medium of src/utils/storage.ts: `localStorage` may be
undefined (`unavailable`), or present with writes either accepted or thrown
(quota) — the code catches the throw and returns its failure sentinel. -/
inductive Medium where
  | unavailable
  | available (store : Store) (writesOk : Bool)
deriving DecidableEq

/-- `'ai_code_modifier_version_count'`  (note: it starts with the version
key stem, so the listing scan visits it and discards it as NaN). -/
def versionCountKey : Str := str "ai_code_modifier_version_count"

/-- `'ai_code_modifier_version_'`, the prefix of every version entry key. -/
def versionKeyStem : Str := str "ai_code_modifier_version_"

/-- Digit run at the front of a string, `none` when there is none. -/
def leadingNat (s : Str) : Option Nat :=
  let ds := s.takeWhile Char.isDigit
  if ds = [] then none
  else some (ds.foldl (fun a c => a * 10 + (c.toNat - 48)) 0)

/-- `parseInt(s, 10)`: skip leading whitespace, optional sign, then a
non-empty run of decimal digits; `none` models NaN. -/
def jsParseInt (s : Str) : Option Int :=
  match s.dropWhile Char.isWhitespace with
  | '-' :: rest => (leadingNat rest).map (fun n => -(n : Int))
  | '+' :: rest => (leadingNat rest).map (fun n => (n : Int))
  | t => (leadingNat t).map (fun n => (n : Int))

/-- `${n}` for a JS integer. -/
def intToStr (n : Int) : Str := (toString n).data

/-- `saveCodeVersion` from src/utils/storage.ts: read the counter
(absent → 0), store the serialized files under `stem + (count+1)`, advance
the counter, return the new number.  Returns `some (-1)` when the medium is
unavailable or the first write throws (the catch path — nothing has been
written at that point); `none` models the NaN version a corrupted counter
produces (the code then writes under the key `..._NaN`). -/
def saveCodeVersion (med : Medium) (files : List UploadedFile) : Medium × Option Int :=
  match med with
  | Medium.unavailable => (med, some (-1))
  | Medium.available store writesOk =>
    if writesOk then
      let cnt : Option Int :=
        match alGet store versionCountKey with
        | none => some 0
        | some (StoreValue.rawStr s) => jsParseInt s
        | some (StoreValue.filesVal _) => none
      match cnt with
      | some c =>
        (Medium.available
          (alSet (alSet store (versionKeyStem ++ intToStr (c + 1)) (StoreValue.filesVal files))
            versionCountKey (StoreValue.rawStr (intToStr (c + 1)))) true,
         some (c + 1))
      | none =>
        (Medium.available
          (alSet (alSet store (versionKeyStem ++ str "NaN") (StoreValue.filesVal files))
            versionCountKey (StoreValue.rawStr (str "NaN"))) true,
         none)
    else (med, some (-1))

/-- `SavedVersion {versionNumber, files}` from src/types.ts. -/
structure SavedVersion where
  versionNumber : Int
  files : List UploadedFile
deriving DecidableEq

/-- Stable insertion of a version after every already-placed version with a
smaller-or-equal number. -/
def insertVersion (v : SavedVersion) : List SavedVersion → List SavedVersion
  | [] => [v]
  | w :: rest =>
    if w.versionNumber ≤ v.versionNumber then w :: insertVersion v rest
    else v :: w :: rest

/-- `versions.sort((a, b) => a.versionNumber - b.versionNumber)`: for this
consistent comparator JS sort must return the stable ascending ordering,
modelled as stable insertion sort. -/
def sortVersions (l : List SavedVersion) : List SavedVersion :=
  l.foldl (fun acc v => insertVersion v acc) []

/-- `getSavedVersions`: scan every key, keep those starting with the stem,
parse the number from `key.replace(stem, '')` (dropping NaN — which also
discards the counter key, since it starts with the stem) and the stored
files (dropping entries that do not parse), then sort ascending. -/
def getSavedVersions (med : Medium) : List SavedVersion :=
  match med with
  | Medium.unavailable => []
  | Medium.available store _ =>
    sortVersions (store.filterMap (fun kv =>
      if versionKeyStem.isPrefixOf kv.1 then
        match jsParseInt (jsReplace kv.1 versionKeyStem []), kv.2 with
        | some n, StoreValue.filesVal fs => some ⟨n, fs⟩
        | _, _ => none
      else none))

/-- `clearAllVersions`: remove every key starting with the stem and the
counter key.  When writes throw, the first `removeItem` throws and the
catch leaves the store as it was. -/
def clearAllVersions (med : Medium) : Medium :=
  match med with
  | Medium.unavailable => med
  | Medium.available store writesOk =>
    if writesOk then
      Medium.available (store.filter (fun kv =>
        if versionKeyStem.isPrefixOf kv.1 = true ∨ kv.1 = versionCountKey then false
        else true)) writesOk
    else med

/-- `MAX_HISTORY_LENGTH` from src/App.tsx. -/
def MAX_HISTORY_LENGTH : Nat := 10

/-- `setHistory(prev => [files, ...prev].slice(0, MAX_HISTORY_LENGTH))`
(src/App.tsx line 129): prepend the snapshot and truncate to the bound. -/
def pushHistory (files : List UploadedFile) (prev : List (List UploadedFile)) :
    List (List UploadedFile) :=
  (files :: prev).take MAX_HISTORY_LENGTH

/-- `handleUndoClick` (src/App.tsx lines 238-245): on a non-empty history,
restore the head snapshot and keep the tail; on an empty history undo is
unavailable. -/
def popHistory : List (List UploadedFile) → Option (List UploadedFile × List (List UploadedFile))
  | [] => none
  | h :: t => some (h, t)

theorem mem_insertVersion (v : SavedVersion) :
    ∀ (l : List SavedVersion) (x : SavedVersion), x ∈ insertVersion v l ↔ x = v ∨ x ∈ l := by
  intro l
  induction l with
  | nil => intro x; simp [insertVersion]
  | cons w rest ih =>
    intro x
    by_cases hw : w.versionNumber ≤ v.versionNumber
    · simp only [insertVersion, if_pos hw, List.mem_cons, ih]
      tauto
    · simp only [insertVersion, if_neg hw, List.mem_cons]

theorem sorted_insertVersion (v : SavedVersion) :
    ∀ l : List SavedVersion,
      List.Pairwise (fun a b => a.versionNumber ≤ b.versionNumber) l →
      List.Pairwise (fun a b => a.versionNumber ≤ b.versionNumber) (insertVersion v l) := by
  intro l
  induction l with
  | nil => intro _; simp [insertVersion]
  | cons w rest ih =>
    intro h
    rw [List.pairwise_cons] at h
    obtain ⟨hw, hrest⟩ := h
    by_cases hle : w.versionNumber ≤ v.versionNumber
    · rw [insertVersion, if_pos hle, List.pairwise_cons]
      refine ⟨?_, ih hrest⟩
      intro x hx
      rcases (mem_insertVersion v rest x).mp hx with he | hm
      · rw [he]; exact hle
      · exact hw x hm
    · rw [insertVersion, if_neg hle, List.pairwise_cons]
      have hvw : v.versionNumber ≤ w.versionNumber := le_of_not_le hle
      refine ⟨?_, List.pairwise_cons.mpr ⟨hw, hrest⟩⟩
      intro x hx
      rcases List.mem_cons.mp hx with he | hm
      · rw [he]; exact hvw
      · exact le_trans hvw (hw x hm)

theorem sorted_sortVersions (l : List SavedVersion) :
    List.Pairwise (fun a b => a.versionNumber ≤ b.versionNumber) (sortVersions l) := by
  have haux : ∀ (l acc : List SavedVersion),
      List.Pairwise (fun a b => a.versionNumber ≤ b.versionNumber) acc →
      List.Pairwise (fun a b => a.versionNumber ≤ b.versionNumber)
        (l.foldl (fun acc v => insertVersion v acc) acc) := by
    intro l
    induction l with
    | nil => intro acc h; exact h
    | cons v rest ih =>
      intro acc h
      rw [List.foldl_cons]
      exact ih _ (sorted_insertVersion v acc h)
  exact haux l [] List.Pairwise.nil

theorem alGet_filter_none {α : Type} (m : List (Str × α)) (keep : Str × α → Bool) (k : Str)
    (h : ∀ v, keep (k, v) = false) : alGet (m.filter keep) k = none := by
  induction m with
  | nil => rfl
  | cons kv rest ih =>
    obtain ⟨k0, v0⟩ := kv
    by_cases h0 : k0 = k
    · subst h0
      rw [List.filter_cons, h v0]
      simp only [Bool.false_eq_true, if_false]
      exact ih
    · rw [List.filter_cons]
      by_cases hkeep : keep (k0, v0) = true
      · rw [hkeep]
        simp only [if_true]
        rw [alGet, if_neg h0]
        exact ih
      · rw [Bool.not_eq_true] at hkeep
        rw [hkeep]
        simp only [Bool.false_eq_true, if_false]
        exact ih

/-- C8: on an empty available store `save` returns 1 and three consecutive
saves return 1, 2, 3 with `getSavedVersions` listing exactly those versions
ascending, every file field preserved; `getSavedVersions` is sorted
ascending by version number for every medium; after `clearAllVersions` the
next save returns 1 again; and on an unavailable medium or a rejected
write, `save` returns the sentinel −1 instead of throwing. -/
theorem C8_version_store :
    (∀ f1 f2 f3 : List UploadedFile,
      (saveCodeVersion (Medium.available [] true) f1).2 = some 1
      ∧ (saveCodeVersion (saveCodeVersion (Medium.available [] true) f1).1 f2).2 = some 2
      ∧ (saveCodeVersion (saveCodeVersion (saveCodeVersion
          (Medium.available [] true) f1).1 f2).1 f3).2 = some 3
      ∧ getSavedVersions (saveCodeVersion (saveCodeVersion (saveCodeVersion
          (Medium.available [] true) f1).1 f2).1 f3).1
        = [⟨1, f1⟩, ⟨2, f2⟩, ⟨3, f3⟩])
    ∧ (∀ med : Medium,
      List.Pairwise (fun a b => a.versionNumber ≤ b.versionNumber) (getSavedVersions med))
    ∧ (∀ (store : Store) (fs : List UploadedFile),
      (saveCodeVersion (clearAllVersions (Medium.available store true)) fs).2 = some 1)
    ∧ (∀ fs : List UploadedFile, (saveCodeVersion Medium.unavailable fs).2 = some (-1))
    ∧ (∀ (store : Store) (fs : List UploadedFile),
      (saveCodeVersion (Medium.available store false) fs).2 = some (-1)) := by
  refine ⟨?_, ?_, ?_, ?_, ?_⟩
  · intro f1 f2 f3
    exact ⟨rfl, rfl, rfl, rfl⟩
  · intro med
    cases med with
    | unavailable => exact List.Pairwise.nil
    | available store w => exact sorted_sortVersions _
  · intro store fs
    have hnone : alGet (store.filter (fun kv =>
        if versionKeyStem.isPrefixOf kv.1 = true ∨ kv.1 = versionCountKey then false
        else true)) versionCountKey = none :=
      alGet_filter_none store _ versionCountKey (fun v => by simp)
    show (saveCodeVersion (Medium.available (store.filter (fun kv =>
        if versionKeyStem.isPrefixOf kv.1 = true ∨ kv.1 = versionCountKey then false
        else true)) true) fs).2 = some 1
    simp only [saveCodeVersion, eq_self_iff_true, if_true, hnone]
    norm_num
  · intro fs
    rfl
  · intro store fs
    rfl

/-- C9: the session-history undo stack is bounded by 10: a push prepends
the snapshot and truncates to the bound, so the stack never exceeds 10
entries; pop returns the most recently pushed snapshot and removes it, and
signals unavailability on an empty stack; pushing 11 snapshots leaves
exactly the last 10, the 11th retrievable first and the very first pushed
snapshot evicted. -/
theorem C9_history_bound :
    (∀ (f : List UploadedFile) (h : List (List UploadedFile)),
      (pushHistory f h).length ≤ MAX_HISTORY_LENGTH)
    ∧ (∀ (f : List UploadedFile) (h : List (List UploadedFile)),
      popHistory (pushHistory f h) = some (f, h.take 9))
    ∧ popHistory [] = none
    ∧ (∀ s1 s2 s3 s4 s5 s6 s7 s8 s9 s10 s11 : List UploadedFile,
      [s1, s2, s3, s4, s5, s6, s7, s8, s9, s10, s11].foldl
          (fun hist s => pushHistory s hist) []
        = [s11, s10, s9, s8, s7, s6, s5, s4, s3, s2]) := by
  refine ⟨?_, ?_, rfl, ?_⟩
  · intro f h
    rw [pushHistory, List.length_take]
    exact Nat.min_le_left _ _
  · intro f h
    rfl
  · intro s1 s2 s3 s4 s5 s6 s7 s8 s9 s10 s11
    rfl
